import Mathlib

/-!
Verification development for the `tp8` SimpleChat protocol and server
(`src/tp8/src/main.rs`): the binary codec (`ProtocolMessage::serialize` /
`ProtocolMessage::deserialize_from_stream`, bincode fixint little-endian
payload behind a 4-byte big-endian length prefix) and the sequential
behaviour of the registry-mutating handlers of `ChatServer`
(`handle_connect`, `handle_join_room`, `handle_send_message`,
`handle_list_users`, `cleanup_user`, `process_message`, `broadcast_to_room`).

Conventions of the embedding:
* a wire byte is a `Nat` (values produced by the encoder are `< 256`);
* a Rust `String` is represented by the list of its UTF-8 bytes
  (`RustString`); UTF-8 validity is abstracted to byte-validity
  (every byte `< 256`), which is what the round-trip proofs need;
* `HashMap` state is an association list (`HMap`) whose operations mirror
  `insert` / `remove` / `get` / `contains_key`;
* the mutex-guarded shared maps are modelled by explicit state passing;
  I/O writes performed by the handlers are collected in a `List Sent`
  (destination plus message), in the order the code issues them;
* `ProtocolMessage::new` stamps a wall-clock timestamp; handlers that
  construct messages carrying a meaningful timestamp take it as the
  explicit parameter `now`.  Messages in the server model are compared by
  their `MessageType` payload, as in the specification.
-/

namespace TP8

/-! ### Codec: bytes, little-endian integers, bincode-style primitives -/

abbrev Byte := Nat

/-- The UTF-8 bytes of a Rust `String`. -/
abbrev RustString := List Byte

/-- `w`-byte little-endian encoding of `n` (bincode fixint). -/
def encLE : Nat → Nat → List Byte
  | 0, _ => []
  | w + 1, n => n % 256 :: encLE w (n / 256)

/-- Little-endian value of a byte list. -/
def decLE : List Byte → Nat
  | [] => 0
  | b :: bs => b + 256 * decLE bs

/-- `u32` little-endian, as bincode writes enum variant tags. -/
def u32le (n : Nat) : List Byte := encLE 4 n

/-- `u64` little-endian, as bincode writes lengths and `u64` fields. -/
def u64le (n : Nat) : List Byte := encLE 8 n

/-- `u32::to_be_bytes`, the frame length prefix. -/
def u32be (n : Nat) : List Byte := (encLE 4 n).reverse

/-- bincode encoding of a `bool` (one byte, `0` or `1`). -/
def encBool (b : Bool) : List Byte := [if b then 1 else 0]

/-- bincode encoding of a `String`: `u64` byte length, then the bytes. -/
def encString (s : RustString) : List Byte := u64le s.length ++ s

/-- `read_exact n`: take exactly `n` bytes off the front, or fail. -/
def readExact (n : Nat) (bs : List Byte) : Option (List Byte × List Byte) :=
  if n ≤ bs.length then some (bs.take n, bs.drop n) else none

/-- Read a little-endian `u32`. -/
def readU32le (bs : List Byte) : Option (Nat × List Byte) :=
  (readExact 4 bs).map fun p => (decLE p.1, p.2)

/-- Read a little-endian `u64`. -/
def readU64le (bs : List Byte) : Option (Nat × List Byte) :=
  (readExact 8 bs).map fun p => (decLE p.1, p.2)

/-- Read a bincode `bool`; any byte other than `0` or `1` is malformed. -/
def readBool : List Byte → Option (Bool × List Byte)
  | 0 :: rest => some (false, rest)
  | 1 :: rest => some (true, rest)
  | _ => none

/-- Read a bincode `String`: `u64` length, then that many valid bytes
(UTF-8 validation abstracted to byte-validity). -/
def readString (bs : List Byte) : Option (RustString × List Byte) := do
  let (len, r1) ← readU64le bs
  let (s, r2) ← readExact len r1
  if s.all (fun b => decide (b < 256)) then pure (s, r2) else none

/-- Read `n` consecutive elements with a given element reader
(bincode `Vec` payload after its `u64` length). -/
def readList (read : List Byte → Option (α × List Byte)) :
    Nat → List Byte → Option (List α × List Byte)
  | 0, bs => some ([], bs)
  | n + 1, bs => do
    let (a, r1) ← read bs
    let (as_, r2) ← readList read n r1
    pure (a :: as_, r2)

/-! ### The message catalogue

`MessageType` is parametric in the string representation: the codec works
on `RustString` (byte lists), the server model on Lean `String`. Variant
order matches the Rust `enum` declaration, which fixes the bincode tags. -/

inductive MessageType (σ : Type) where
  | Connect (username : σ)
  | JoinRoom (room : σ)
  | SendMessage (room : σ) (content : σ)
  | ListRooms
  | ListUsers (room : σ)
  | Disconnect
  | ConnectAck (success : Bool) (message : σ)
  | JoinRoomAck (success : Bool) (room : σ) (message : σ)
  | MessageBroadcast (room : σ) (username : σ) (content : σ) (timestamp : Nat)
  | RoomList (rooms : List σ)
  | UserList (room : σ) (users : List σ)
  | Error (message : σ)
  | UserJoined (room : σ) (username : σ)
  | UserLeft (room : σ) (username : σ)
deriving DecidableEq

/-- `ProtocolMessage { message_type, timestamp }`. -/
structure ProtocolMessage (σ : Type) where
  message_type : MessageType σ
  timestamp : Nat
deriving DecidableEq

/-- bincode payload of a `MessageType` value: `u32` variant tag in
declaration order, then the fields in order. -/
def MessageType.encode : MessageType RustString → List Byte
  | .Connect u => u32le 0 ++ encString u
  | .JoinRoom r => u32le 1 ++ encString r
  | .SendMessage r c => u32le 2 ++ encString r ++ encString c
  | .ListRooms => u32le 3
  | .ListUsers r => u32le 4 ++ encString r
  | .Disconnect => u32le 5
  | .ConnectAck s m => u32le 6 ++ encBool s ++ encString m
  | .JoinRoomAck s r m => u32le 7 ++ encBool s ++ encString r ++ encString m
  | .MessageBroadcast r u c t =>
      u32le 8 ++ encString r ++ encString u ++ encString c ++ u64le t
  | .RoomList rs => u32le 9 ++ u64le rs.length ++ (rs.map encString).flatten
  | .UserList r us =>
      u32le 10 ++ encString r ++ u64le us.length ++ (us.map encString).flatten
  | .Error m => u32le 11 ++ encString m
  | .UserJoined r u => u32le 12 ++ encString r ++ encString u
  | .UserLeft r u => u32le 13 ++ encString r ++ encString u

/-- bincode decoding of a `MessageType`: read the `u32` tag, then the
fields of the corresponding variant; unknown tags are malformed. -/
def MessageType.decode (bs : List Byte) :
    Option (MessageType RustString × List Byte) := do
  let (tag, r0) ← readU32le bs
  if tag = 0 then do
    let (u, r) ← readString r0; pure (.Connect u, r)
  else if tag = 1 then do
    let (r1, r) ← readString r0; pure (.JoinRoom r1, r)
  else if tag = 2 then do
    let (r1, ra) ← readString r0
    let (c, r) ← readString ra
    pure (.SendMessage r1 c, r)
  else if tag = 3 then pure (.ListRooms, r0)
  else if tag = 4 then do
    let (r1, r) ← readString r0; pure (.ListUsers r1, r)
  else if tag = 5 then pure (.Disconnect, r0)
  else if tag = 6 then do
    let (s, ra) ← readBool r0
    let (m, r) ← readString ra
    pure (.ConnectAck s m, r)
  else if tag = 7 then do
    let (s, ra) ← readBool r0
    let (r1, rb) ← readString ra
    let (m, r) ← readString rb
    pure (.JoinRoomAck s r1 m, r)
  else if tag = 8 then do
    let (r1, ra) ← readString r0
    let (u, rb) ← readString ra
    let (c, rc) ← readString rb
    let (t, r) ← readU64le rc
    pure (.MessageBroadcast r1 u c t, r)
  else if tag = 9 then do
    let (n, ra) ← readU64le r0
    let (rs, r) ← readList readString n ra
    pure (.RoomList rs, r)
  else if tag = 10 then do
    let (r1, ra) ← readString r0
    let (n, rb) ← readU64le ra
    let (us, r) ← readList readString n rb
    pure (.UserList r1 us, r)
  else if tag = 11 then do
    let (m, r) ← readString r0; pure (.Error m, r)
  else if tag = 12 then do
    let (r1, ra) ← readString r0
    let (u, r) ← readString ra
    pure (.UserJoined r1 u, r)
  else if tag = 13 then do
    let (r1, ra) ← readString r0
    let (u, r) ← readString ra
    pure (.UserLeft r1 u, r)
  else none

/-- The bincode payload of a `ProtocolMessage`: fields in declaration
order, `message_type` then `timestamp`. -/
def ProtocolMessage.payload (m : ProtocolMessage RustString) : List Byte :=
  m.message_type.encode ++ u64le m.timestamp

/-- `ProtocolMessage::serialize`: bincode payload prefixed by its length
as a 4-byte big-endian `u32` (`data.len() as u32`, hence modulo `2^32`). -/
def ProtocolMessage.serialize (m : ProtocolMessage RustString) : List Byte :=
  u32be m.payload.length ++ m.payload

/-- bincode decoding of a `ProtocolMessage` from a buffer (trailing bytes
are permitted, as by `bincode::deserialize`). -/
def ProtocolMessage.decodePayload (bs : List Byte) :
    Option (ProtocolMessage RustString × List Byte) := do
  let (mt, r1) ← MessageType.decode bs
  let (ts, r2) ← readU64le r1
  pure (⟨mt, ts⟩, r2)

/-- `ProtocolMessage::deserialize_from_stream` on the bytes available in
the stream: read 4 bytes, interpret them as a big-endian length `L`, read
exactly `L` bytes, and bincode-decode the buffer. -/
def deserialize_from_stream (bs : List Byte) :
    Option (ProtocolMessage RustString) := do
  let (lenBytes, r1) ← readExact 4 bs
  let len := decLE lenBytes.reverse
  let (buffer, _) ← readExact len r1
  let (m, _) ← ProtocolMessage.decodePayload buffer
  pure m

/-! ### Representability

The side conditions forced by the Rust types: string bytes are UTF-8
bytes (abstracted: `< 256`), `usize` lengths and `u64` fields fit in 64
bits. The `< 2^32` bound on the whole payload is *not* forced by the
types and is stated separately where needed. -/

/-- Byte-validity and length bound of an embedded Rust `String`. -/
def wfStr (s : RustString) : Bool :=
  s.all (fun b => decide (b < 256)) && decide (s.length < 2 ^ 64)

/-- The fields of the message respect the bounds of their Rust types. -/
def MessageType.wf : MessageType RustString → Bool
  | .Connect u => wfStr u
  | .JoinRoom r => wfStr r
  | .SendMessage r c => wfStr r && wfStr c
  | .ListRooms => true
  | .ListUsers r => wfStr r
  | .Disconnect => true
  | .ConnectAck _ m => wfStr m
  | .JoinRoomAck _ r m => wfStr r && wfStr m
  | .MessageBroadcast r u c t =>
      wfStr r && wfStr u && wfStr c && decide (t < 2 ^ 64)
  | .RoomList rs => decide (rs.length < 2 ^ 64) && rs.all wfStr
  | .UserList r us =>
      wfStr r && decide (us.length < 2 ^ 64) && us.all wfStr
  | .Error m => wfStr m
  | .UserJoined r u => wfStr r && wfStr u
  | .UserLeft r u => wfStr r && wfStr u

/-- Representability of a whole protocol message. -/
def ProtocolMessage.wf (m : ProtocolMessage RustString) : Bool :=
  m.message_type.wf && decide (m.timestamp < 2 ^ 64)

/-- `2^32`, the modulus of the `data.len() as u32` cast. It is kept
behind a name so that proof automation never expands the `2^32`-element
list below. -/
def big : Nat := 2 ^ 32

/-- A 4 GiB string (2^32 bytes `97`, i.e. 2^32 copies of `a`): a legal
Rust `String` whose encoded payload overflows the `u32` length prefix. -/
def bigString : RustString := List.replicate big 97

/-- The `Error` message carrying `bigString`. -/
def bigMsg : ProtocolMessage RustString := ⟨.Error bigString, 0⟩

/-! ### Registry model

The three mutex-guarded `HashMap`s of `ChatServer` are modelled as
association lists in which the first binding for a key wins; `mapInsert`
replaces an existing binding and `mapRemove` deletes it, as `HashMap`
`insert` / `remove` do. -/

/-- `HashMap::get`: the first binding for the key, if any. -/
def mapGet {α : Type} : List (String × α) → String → Option α
  | [], _ => none
  | (k, v) :: rest, k' => if k = k' then some v else mapGet rest k'

/-- `HashMap::contains_key`. -/
def mapContains {α : Type} (m : List (String × α)) (k : String) : Bool :=
  (mapGet m k).isSome

/-- `HashMap::remove` (dropping the binding). -/
def mapRemove {α : Type} : List (String × α) → String → List (String × α)
  | [], _ => []
  | (k, v) :: rest, k' =>
      if k = k' then mapRemove rest k' else (k, v) :: mapRemove rest k'

/-- `HashMap::insert` (replacing any existing binding). -/
def mapInsert {α : Type} (m : List (String × α)) (k : String) (v : α) :
    List (String × α) :=
  (k, v) :: mapRemove m k

/-- `HashMap::keys`. -/
def mapKeys {α : Type} (m : List (String × α)) : List String :=
  m.map Prod.fst

/-- The Rust `User` struct. -/
structure User where
  username : String
  current_room : Option String
deriving DecidableEq

/-- The shared state of `ChatServer`: `users`, `rooms` (room name to
member usernames in join order) and `connections` (usernames owning a
stored stream handle; the handle itself carries no information the model
needs, so its value is `Unit`). -/
structure ServerState where
  users : List (String × User)
  rooms : List (String × List String)
  connections : List (String × Unit)
deriving DecidableEq

/-- Where a write goes: the session's own stream, or the stored
connection handle of a user. -/
inductive Dest where
  | session
  | conn (username : String)
deriving DecidableEq

/-- One message written by the server, with its destination. -/
structure Sent where
  dest : Dest
  msg : MessageType String
deriving DecidableEq

/-- `ChatServer::broadcast_to_room`: for every username in the room's
member list, in order, skip the excluded user, and write the message to
the user's stored connection if one exists. -/
def broadcast_to_room (st : ServerState) (room : String)
    (message_type : MessageType String) (exclude : Option String) :
    List Sent :=
  match mapGet st.rooms room with
  | none => []
  | some room_users =>
      (room_users.filter fun u =>
          decide (exclude ≠ some u) && mapContains st.connections u).map
        fun u => ⟨.conn u, message_type⟩

/-- `ChatServer::handle_connect`: a taken name is refused with
`ConnectAck(false)` and nothing changes; otherwise the user is registered
with no room, the connection handle stored, the session rebound. -/
def handle_connect (st : ServerState) (username : String)
    (current_user : Option String) :
    ServerState × Option String × List Sent :=
  if mapContains st.users username then
    (st, current_user,
      [⟨.session, .ConnectAck false "Nom d\x27utilisateur déjà utilisé"⟩])
  else
    ({ st with
        users := mapInsert st.users username ⟨username, none⟩,
        connections := mapInsert st.connections username () },
      some username,
      [⟨.session, .ConnectAck true ("Bienvenue, " ++ username ++ " !")⟩])

/-- `ChatServer::handle_join_room`: leave the previous room (if the user
record names one and that room exists) with a `UserLeft` broadcast to the
already-shrunk old member list, then append to the new room's list
(created lazily), update `current_room`, acknowledge, and broadcast
`UserJoined` to the new room excluding the joiner. -/
def handle_join_room (st : ServerState) (username room : String) :
    ServerState × List Sent :=
  let leave : ServerState × List Sent :=
    match mapGet st.users username with
    | some user =>
        match user.current_room with
        | some old_room =>
            match mapGet st.rooms old_room with
            | some room_users =>
                let st1 := { st with
                  rooms := mapInsert st.rooms old_room
                    (room_users.filter fun u => decide (u ≠ username)) }
                (st1, broadcast_to_room st1 old_room
                  (.UserLeft old_room username) (some username))
            | none => (st, [])
        | none => (st, [])
    | none => (st, [])
  let st1 := leave.1
  let st2 := { st1 with
    rooms := mapInsert st1.rooms room
      ((mapGet st1.rooms room).getD [] ++ [username]) }
  let st3 := { st2 with
    users :=
      match mapGet st2.users username with
      | some user =>
          mapInsert st2.users username { user with current_room := some room }
      | none => st2.users }
  (st3,
    leave.2
    ++ [⟨.session,
          .JoinRoomAck true room ("Vous avez rejoint le salon " ++ room)⟩]
    ++ broadcast_to_room st3 room (.UserJoined room username) (some username))

/-- `ChatServer::handle_send_message`: broadcast to the room (sender
included, `exclude_user == None`) only when the sender's `current_room`
is exactly the target room; otherwise do nothing at all. -/
def handle_send_message (st : ServerState) (username room content : String)
    (now : Nat) : ServerState × List Sent :=
  match mapGet st.users username with
  | some user =>
      if user.current_room = some room then
        (st, broadcast_to_room st room
          (.MessageBroadcast room username content now) none)
      else (st, [])
  | none => (st, [])

/-- `ChatServer::handle_list_rooms`. -/
def handle_list_rooms (st : ServerState) : List Sent :=
  [⟨.session, .RoomList (mapKeys st.rooms)⟩]

/-- `ChatServer::handle_list_users`: the member list of the room, or the
empty list for an unknown room. -/
def handle_list_users (st : ServerState) (room : String) : List Sent :=
  [⟨.session, .UserList room ((mapGet st.rooms room).getD [])⟩]

/-- `ChatServer::cleanup_user`: remove the user from its current room
(broadcasting `UserLeft` to the remaining members), then remove it from
the user map and the connection map. -/
def cleanup_user (st : ServerState) (username : String) :
    ServerState × List Sent :=
  let leave : ServerState × List Sent :=
    match mapGet st.users username with
    | some user =>
        match user.current_room with
        | some room =>
            match mapGet st.rooms room with
            | some room_users =>
                let st1 := { st with
                  rooms := mapInsert st.rooms room
                    (room_users.filter fun u => decide (u ≠ username)) }
                (st1, broadcast_to_room st1 room
                  (.UserLeft room username) (some username))
            | none => (st, [])
        | none => (st, [])
    | none => (st, [])
  ({ leave.1 with
      users := mapRemove leave.1.users username,
      connections := mapRemove leave.1.connections username },
    leave.2)

/-- Result of one iteration of the session's read loop body. -/
structure StepResult where
  state : ServerState
  current_user : Option String
  continue_loop : Bool
  sent : List Sent
deriving DecidableEq

/-- The server-to-client half of the catalogue (the variants caught by
the `_` arm of `process_message`). -/
def MessageType.isServerToClient {σ : Type} : MessageType σ → Bool
  | .ConnectAck _ _ => true
  | .JoinRoomAck _ _ _ => true
  | .MessageBroadcast _ _ _ _ => true
  | .RoomList _ => true
  | .UserList _ _ => true
  | .Error _ => true
  | .UserJoined _ _ => true
  | .UserLeft _ _ => true
  | _ => false

/-- Is the message an `Error`? -/
def MessageType.isErrorMsg {σ : Type} : MessageType σ → Bool
  | .Error _ => true
  | _ => false

/-- `ChatServer::process_message`: dispatch one decoded message.
`JoinRoom` and `SendMessage` require an authenticated session and are
answered with `Error("Non connecté")` otherwise; `ListRooms` and
`ListUsers` are served unconditionally; `Disconnect` stops the loop;
the server-to-client variants fall to the catch-all arm. -/
def process_message (st : ServerState) (mt : MessageType String)
    (current_user : Option String) (now : Nat) : StepResult :=
  match mt with
  | .Connect username =>
      let r := handle_connect st username current_user
      ⟨r.1, r.2.1, true, r.2.2⟩
  | .JoinRoom room =>
      match current_user with
      | some user =>
          let r := handle_join_room st user room
          ⟨r.1, current_user, true, r.2⟩
      | none =>
          ⟨st, none, true, [⟨.session, .Error "Non connecté"⟩]⟩
  | .SendMessage room content =>
      match current_user with
      | some user =>
          let r := handle_send_message st user room content now
          ⟨r.1, current_user, true, r.2⟩
      | none =>
          ⟨st, none, true, [⟨.session, .Error "Non connecté"⟩]⟩
  | .ListRooms => ⟨st, current_user, true, handle_list_rooms st⟩
  | .ListUsers room => ⟨st, current_user, true, handle_list_users st room⟩
  | .Disconnect => ⟨st, current_user, false, []⟩
  | _ =>
      ⟨st, current_user, true, [⟨.session, .Error "Message non supporté"⟩]⟩

/-! ### Registry invariant -/

/-- The registry invariant of §3 of the specification: member lists have
no duplicates; a member of a room is a registered user whose
`current_room` is that room (hence a username is in at most one room's
list); a user whose record names a room is in that room's list; and the
connection map holds exactly the registered usernames. -/
structure Inv (st : ServerState) : Prop where
  nodup : ∀ r l, mapGet st.rooms r = some l → l.Nodup
  mem_users : ∀ r l u, mapGet st.rooms r = some l → u ∈ l →
      ∃ usr, mapGet st.users u = some usr ∧ usr.current_room = some r
  room_mem : ∀ u usr r, mapGet st.users u = some usr →
      usr.current_room = some r → ∃ l, mapGet st.rooms r = some l ∧ u ∈ l
  conn_users : ∀ u, mapContains st.connections u = mapContains st.users u

/-- Decidable check implying `Inv`, quantifying over the stored entries
instead of over all keys (used to certify concrete states). -/
def invB (st : ServerState) : Bool :=
  (st.rooms.all fun rl =>
    decide rl.2.Nodup &&
    rl.2.all fun u =>
      match mapGet st.users u with
      | some usr => decide (usr.current_room = some rl.1)
      | none => false) &&
  (st.users.all fun p =>
    match p.2.current_room with
    | some r =>
        match mapGet st.rooms r with
        | some l => decide (p.1 ∈ l)
        | none => false
    | none => true) &&
  (st.users.all fun p => mapContains st.connections p.1) &&
  (st.connections.all fun p => mapContains st.users p.1)

/-- Every username of the state appears in the member list of at most
one room (the §3 invariant the claims single out). -/
def atMostOneRoom (st : ServerState) : Prop :=
  ∀ u r1 r2 l1 l2, mapGet st.rooms r1 = some l1 →
    mapGet st.rooms r2 = some l2 → u ∈ l1 → u ∈ l2 → r1 = r2

/-! ### Concrete states used by the witnesses -/

/-- The empty registry. -/
def st0 : ServerState := ⟨[], [], []⟩

/-- Users `a` and `b`, both connected and both in room `r`. -/
def stAB : ServerState :=
  ⟨[("a", ⟨"a", some "r"⟩), ("b", ⟨"b", some "r"⟩)],
   [("r", ["a", "b"])],
   [("a", ()), ("b", ())]⟩

/-! ### Codec lemmas -/

theorem encLE_length (w n : Nat) : (encLE w n).length = w := by
  induction w generalizing n with
  | zero => rfl
  | succ k ih => simp [encLE, ih]

theorem decLE_encLE (w n : Nat) : decLE (encLE w n) = n % 2 ^ (8 * w) := by
  induction w generalizing n with
  | zero => simp [encLE, decLE, Nat.mod_one]
  | succ k ih =>
    rw [encLE, decLE, ih]
    have h : 2 ^ (8 * (k + 1)) = 256 * 2 ^ (8 * k) := by
      rw [Nat.mul_succ, pow_add]; ring
    rw [h, Nat.mod_mul]

theorem readExact_append (l r : List Byte) :
    readExact l.length (l ++ r) = some (l, r) := by
  simp [readExact, List.take_left, List.drop_left]

theorem readExact_append_of_length (n : Nat) (l r : List Byte)
    (h : l.length = n) : readExact n (l ++ r) = some (l, r) := by
  subst h; exact readExact_append l r

theorem readU32le_append (n : Nat) (r : List Byte) (h : n < 2 ^ 32) :
    readU32le (u32le n ++ r) = some (n, r) := by
  rw [readU32le, u32le, readExact_append_of_length 4 _ r (encLE_length 4 n)]
  have hd : decLE (encLE 4 n) = n := by
    rw [decLE_encLE]; exact Nat.mod_eq_of_lt (by norm_num at h ⊢; exact h)
  simp [hd]

theorem readU64le_append (n : Nat) (r : List Byte) (h : n < 2 ^ 64) :
    readU64le (u64le n ++ r) = some (n, r) := by
  rw [readU64le, u64le, readExact_append_of_length 8 _ r (encLE_length 8 n)]
  have hd : decLE (encLE 8 n) = n := by
    rw [decLE_encLE]; exact Nat.mod_eq_of_lt (by norm_num at h ⊢; exact h)
  simp [hd]

theorem readBool_append (b : Bool) (r : List Byte) :
    readBool (encBool b ++ r) = some (b, r) := by
  cases b <;> rfl

theorem readString_append (s : RustString) (r : List Byte)
    (h : wfStr s = true) : readString (encString s ++ r) = some (s, r) := by
  rw [wfStr, Bool.and_eq_true, decide_eq_true_eq] at h
  rw [readString, encString, List.append_assoc, readU64le_append _ _ h.2]
  have he : readExact s.length (s ++ r) = some (s, r) := by
    simpa using readExact_append s r
  simp only [Option.bind_eq_bind, Option.some_bind, he, h.1, if_true]
  rfl

theorem readList_encString (l : List RustString)
    (h : ∀ a ∈ l, wfStr a = true) (r : List Byte) :
    readList readString l.length ((l.map encString).flatten ++ r) =
      some (l, r) := by
  induction l generalizing r with
  | nil => simp [readList]
  | cons a as ih =>
    simp only [List.map_cons, List.flatten_cons, List.append_assoc,
      List.length_cons]
    rw [readList, readString_append _ _ (h a (by simp))]
    simp [ih (fun x hx => h x (by simp [hx]))]

theorem decode_encode (mt : MessageType RustString) (h : mt.wf = true)
    (r : List Byte) : MessageType.decode (mt.encode ++ r) = some (mt, r) := by
  cases mt with
  | Connect u =>
    rw [MessageType.wf] at h
    have h0 := fun x => readU32le_append 0 x (by norm_num)
    have h1 := fun x => readString_append u x h
    simp [MessageType.decode, MessageType.encode, List.append_assoc, h0, h1]
  | JoinRoom r1 =>
    rw [MessageType.wf] at h
    have h0 := fun x => readU32le_append 1 x (by norm_num)
    have h1 := fun x => readString_append r1 x h
    simp [MessageType.decode, MessageType.encode, List.append_assoc, h0, h1]
  | SendMessage r1 c =>
    rw [MessageType.wf, Bool.and_eq_true] at h
    have h0 := fun x => readU32le_append 2 x (by norm_num)
    have h1 := fun x => readString_append r1 x h.1
    have h2 := fun x => readString_append c x h.2
    simp [MessageType.decode, MessageType.encode, List.append_assoc,
      h0, h1, h2]
  | ListRooms =>
    have h0 := fun x => readU32le_append 3 x (by norm_num)
    simp [MessageType.decode, MessageType.encode, h0]
  | ListUsers r1 =>
    rw [MessageType.wf] at h
    have h0 := fun x => readU32le_append 4 x (by norm_num)
    have h1 := fun x => readString_append r1 x h
    simp [MessageType.decode, MessageType.encode, List.append_assoc, h0, h1]
  | Disconnect =>
    have h0 := fun x => readU32le_append 5 x (by norm_num)
    simp [MessageType.decode, MessageType.encode, h0]
  | ConnectAck s m =>
    rw [MessageType.wf] at h
    have h0 := fun x => readU32le_append 6 x (by norm_num)
    have h1 := fun x => readString_append m x h
    simp [MessageType.decode, MessageType.encode, List.append_assoc, h0,
      readBool_append, h1]
  | JoinRoomAck s r1 m =>
    rw [MessageType.wf, Bool.and_eq_true] at h
    have h0 := fun x => readU32le_append 7 x (by norm_num)
    have h1 := fun x => readString_append r1 x h.1
    have h2 := fun x => readString_append m x h.2
    simp [MessageType.decode, MessageType.encode, List.append_assoc, h0,
      readBool_append, h1, h2]
  | MessageBroadcast r1 u c t =>
    rw [MessageType.wf, Bool.and_eq_true, Bool.and_eq_true,
      Bool.and_eq_true, decide_eq_true_eq] at h
    have h0 := fun x => readU32le_append 8 x (by norm_num)
    have h1 := fun x => readString_append r1 x h.1.1.1
    have h2 := fun x => readString_append u x h.1.1.2
    have h3 := fun x => readString_append c x h.1.2
    have h4 := fun x => readU64le_append t x h.2
    simp [MessageType.decode, MessageType.encode, List.append_assoc,
      h0, h1, h2, h3, h4]
  | RoomList rs =>
    rw [MessageType.wf, Bool.and_eq_true, decide_eq_true_eq,
      List.all_eq_true] at h
    have h0 := fun x => readU32le_append 9 x (by norm_num)
    have h1 := fun x => readU64le_append rs.length x h.1
    have h2 := fun x => readList_encString rs (fun a ha => h.2 a ha) x
    simp [MessageType.decode, MessageType.encode, List.append_assoc,
      h0, h1, h2]
  | UserList r1 us =>
    rw [MessageType.wf, Bool.and_eq_true, Bool.and_eq_true,
      decide_eq_true_eq, List.all_eq_true] at h
    have h0 := fun x => readU32le_append 10 x (by norm_num)
    have h1 := fun x => readString_append r1 x h.1.1
    have h2 := fun x => readU64le_append us.length x h.1.2
    have h3 := fun x => readList_encString us (fun a ha => h.2 a ha) x
    simp [MessageType.decode, MessageType.encode, List.append_assoc,
      h0, h1, h2, h3]
  | Error m =>
    rw [MessageType.wf] at h
    have h0 := fun x => readU32le_append 11 x (by norm_num)
    have h1 := fun x => readString_append m x h
    simp [MessageType.decode, MessageType.encode, List.append_assoc, h0, h1]
  | UserJoined r1 u =>
    rw [MessageType.wf, Bool.and_eq_true] at h
    have h0 := fun x => readU32le_append 12 x (by norm_num)
    have h1 := fun x => readString_append r1 x h.1
    have h2 := fun x => readString_append u x h.2
    simp [MessageType.decode, MessageType.encode, List.append_assoc,
      h0, h1, h2]
  | UserLeft r1 u =>
    rw [MessageType.wf, Bool.and_eq_true] at h
    have h0 := fun x => readU32le_append 13 x (by norm_num)
    have h1 := fun x => readString_append r1 x h.1
    have h2 := fun x => readString_append u x h.2
    simp [MessageType.decode, MessageType.encode, List.append_assoc,
      h0, h1, h2]

theorem decodePayload_payload (m : ProtocolMessage RustString)
    (h : m.wf = true) (r : List Byte) :
    ProtocolMessage.decodePayload (m.payload ++ r) = some (m, r) := by
  rw [ProtocolMessage.wf, Bool.and_eq_true, decide_eq_true_eq] at h
  have h1 := fun x => decode_encode m.message_type h.1 x
  have h2 := fun x => readU64le_append m.timestamp x h.2
  simp [ProtocolMessage.decodePayload, ProtocolMessage.payload,
    List.append_assoc, h1, h2]

/-- C1 (amended): for every catalogue message that is field-wise
representable (`wf`) and whose bincode payload is shorter than `2^32`
bytes — so that the `data.len() as u32` length prefix is exact —
deserializing the frame produced by `serialize` yields the message back,
`message_type` and `timestamp` unchanged. -/
theorem tp8_C1_roundtrip (m : ProtocolMessage RustString)
    (hwf : m.wf = true) (hlen : m.payload.length < 2 ^ 32) :
    deserialize_from_stream m.serialize = some m := by
  rw [deserialize_from_stream, ProtocolMessage.serialize,
    readExact_append_of_length 4 _ _ (by simp [u32be, encLE_length])]
  have hd : decLE (u32be m.payload.length).reverse = m.payload.length := by
    rw [u32be, List.reverse_reverse, decLE_encLE]
    exact Nat.mod_eq_of_lt (by norm_num at hlen ⊢; exact hlen)
  have he : readExact m.payload.length m.payload = some (m.payload, []) := by
    simpa using readExact_append m.payload []
  have hp : ProtocolMessage.decodePayload m.payload = some (m, []) := by
    simpa using decodePayload_payload m hwf []
  simp [hd, he, hp]

/-- Witness for C1 at the message `Connect "hi"` (UTF-8 bytes
`[104, 105]`) with timestamp 42. -/
theorem tp8_C1_roundtrip_witness :
    ProtocolMessage.wf ⟨.Connect [104, 105], 42⟩ = true ∧
    (ProtocolMessage.payload ⟨.Connect [104, 105], 42⟩).length < 2 ^ 32 ∧
    deserialize_from_stream
        (ProtocolMessage.serialize ⟨.Connect [104, 105], 42⟩) =
      some ⟨.Connect [104, 105], 42⟩ :=
  ⟨by decide, by decide,
    tp8_C1_roundtrip ⟨.Connect [104, 105], 42⟩ (by decide) (by decide)⟩

theorem deserialize_of_decode_none (lenB p buf : List Byte)
    (hlenB : lenB.length = 4)
    (hread : readExact (decLE lenB.reverse) p =
      some (buf, p.drop (decLE lenB.reverse)))
    (hbuf : ProtocolMessage.decodePayload buf = none) :
    deserialize_from_stream (lenB ++ p) = none := by
  rw [deserialize_from_stream, readExact_append_of_length 4 _ _ hlenB]
  simp only [Option.bind_eq_bind, Option.some_bind, hread, hbuf,
    Option.none_bind]

/-- C1 as stated is false at one concrete catalogue message: `bigMsg`
(an `Error` carrying a 2^32-byte string) is built from a `MessageType`
variant and is field-wise representable, yet its 2^32+20-byte payload is
truncated to a length prefix of 20 by `data.len() as u32`, so
deserializing its frame fails (`none`) instead of returning the
message. -/
theorem tp8_C1_counterexample :
    ProtocolMessage.wf bigMsg = true ∧
    deserialize_from_stream (ProtocolMessage.serialize bigMsg) = none := by
  have hbig : big = 2 ^ 32 := rfl
  have h1 : bigString.all (fun b => decide (b < 256)) = true := by
    rw [List.all_eq_true]
    intro x hx
    rw [bigString] at hx
    rw [List.eq_of_mem_replicate hx]
    rfl
  have hlenS : bigString.length = big := by
    rw [bigString, List.length_replicate]
  have hlen : bigMsg.payload.length = big + 20 := by
    show (MessageType.encode (.Error bigString) ++ u64le 0).length = _
    rw [MessageType.encode, encString]
    rw [List.length_append, List.length_append, List.length_append,
      hlenS]
    rw [u32le, u64le, u64le, encLE_length, encLE_length, encLE_length]
    omega
  constructor
  · show (MessageType.wf (.Error bigString) && decide (0 < 2 ^ 64)) = true
    rw [MessageType.wf, wfStr, h1, hlenS, hbig]
    norm_num
  · have hd : decLE (u32be (big + 20)).reverse = 20 := by
      rw [u32be, List.reverse_reverse, decLE_encLE, hbig]
      norm_num
    have hr20 : readExact 20 bigMsg.payload =
        some (bigMsg.payload.take 20, bigMsg.payload.drop 20) := by
      rw [readExact, if_pos]
      rw [hlen, hbig]; norm_num
    have hbuf : bigMsg.payload.take 20 =
        u32le 11 ++ (u64le big ++ [97, 97, 97, 97, 97, 97, 97, 97]) := by
      show (MessageType.encode (.Error bigString) ++ u64le 0).take 20 = _
      rw [MessageType.encode, encString, hlenS]
      rw [List.append_assoc, List.take_append_eq_append_take]
      rw [List.take_of_length_le (by rw [u32le, encLE_length]; norm_num)]
      rw [u32le, encLE_length]
      rw [List.append_assoc, List.take_append_eq_append_take]
      rw [List.take_of_length_le (by rw [u64le, encLE_length]; norm_num)]
      rw [u64le, encLE_length]
      rw [List.take_append_eq_append_take]
      rw [bigString, List.take_replicate, List.length_replicate]
      have hm : min (20 - 4 - 8) big = 8 :=
        Nat.min_eq_left (by rw [hbig]; norm_num)
      rw [hm]
      have hz : 20 - 4 - 8 - big = 0 :=
        Nat.sub_eq_zero_of_le (by rw [hbig]; norm_num)
      rw [hz]
      simp [u32le, u64le]
    have hre : readExact big [97, 97, 97, 97, 97, 97, 97, 97] = none := by
      rw [readExact, if_neg]
      rw [hbig]
      norm_num
    have hrs : readString (u64le big ++ [97, 97, 97, 97, 97, 97, 97, 97]) =
        none := by
      rw [readString, readU64le_append big _ (by rw [hbig]; norm_num)]
      simp only [Option.bind_eq_bind, Option.some_bind, hre,
        Option.none_bind]
    have hdec : ProtocolMessage.decodePayload
        (u32le 11 ++ (u64le big ++ [97, 97, 97, 97, 97, 97, 97, 97])) =
          none := by
      have h11 := fun x => readU32le_append 11 x (by norm_num)
      rw [ProtocolMessage.decodePayload, MessageType.decode, h11]
      simp only [Option.bind_eq_bind, Option.some_bind, hrs,
        Option.none_bind]
      norm_num
    have happ : ProtocolMessage.serialize bigMsg =
        u32be (big + 20) ++ bigMsg.payload := by
      rw [ProtocolMessage.serialize, hlen]
    rw [happ]
    refine deserialize_of_decode_none (u32be (big + 20)) bigMsg.payload
      (bigMsg.payload.take 20) (by simp [u32be, encLE_length]) ?_ ?_
    · rw [hd]
      exact hr20
    · rw [hbuf]
      exact hdec

/-! ### Association-list map lemmas -/

theorem mapGet_remove {α : Type} (m : List (String × α)) (k k' : String) :
    mapGet (mapRemove m k) k' = if k = k' then none else mapGet m k' := by
  induction m with
  | nil => simp [mapRemove, mapGet]
  | cons p rest ih =>
    obtain ⟨a, b⟩ := p
    rw [mapRemove]
    by_cases hak : a = k
    · subst hak
      rw [if_pos rfl, ih]
      by_cases hkk : a = k'
      · simp [hkk]
      · simp [mapGet, hkk]
    · rw [if_neg hak, mapGet, ih]
      by_cases hkk : k = k'
      · have hak2 : ¬a = k' := fun hh => hak (hh.trans hkk.symm)
        simp [hkk, hak2]
      · by_cases hak2 : a = k' <;> simp [mapGet, hkk, hak2]

theorem mapGet_insert {α : Type} (m : List (String × α)) (k k' : String)
    (v : α) :
    mapGet (mapInsert m k v) k' = if k = k' then some v else mapGet m k' := by
  rw [mapInsert, mapGet, mapGet_remove]
  by_cases h : k = k' <;> simp [h]

theorem mapRemove_of_get_none {α : Type} (m : List (String × α))
    (k : String) (h : mapGet m k = none) : mapRemove m k = m := by
  induction m with
  | nil => rfl
  | cons p rest ih =>
    obtain ⟨a, b⟩ := p
    rw [mapGet] at h
    by_cases hak : a = k
    · simp [hak] at h
    · simp [mapRemove, hak, ih (by simpa [hak] using h)]

theorem mapGet_mem {α : Type} (m : List (String × α)) (k : String) (v : α)
    (h : mapGet m k = some v) : (k, v) ∈ m := by
  induction m with
  | nil => simp [mapGet] at h
  | cons p rest ih =>
    obtain ⟨a, b⟩ := p
    rw [mapGet] at h
    by_cases hak : a = k
    · subst hak
      have hb : b = v := by simpa using h
      subst hb
      exact List.mem_cons_self _ _
    · rw [if_neg hak] at h
      exact List.mem_cons_of_mem _ (ih h)

theorem mapContains_true {α : Type} {m : List (String × α)} {k : String} :
    mapContains m k = true ↔ ∃ v, mapGet m k = some v := by
  rw [mapContains]
  cases h : mapGet m k <;> simp [h]

theorem mapContains_false {α : Type} {m : List (String × α)} {k : String} :
    mapContains m k = false ↔ mapGet m k = none := by
  rw [mapContains]
  cases h : mapGet m k <;> simp [h]

theorem mapContains_insert {α : Type} (m : List (String × α))
    (k k' : String) (v : α) :
    mapContains (mapInsert m k v) k' =
      ((k = k' : Bool) || mapContains m k') := by
  rw [mapContains, mapContains, mapGet_insert]
  by_cases h : k = k' <;> simp [h]

theorem mapContains_remove {α : Type} (m : List (String × α))
    (k k' : String) :
    mapContains (mapRemove m k) k' =
      (!(k = k' : Bool) && mapContains m k') := by
  rw [mapContains, mapContains, mapGet_remove]
  by_cases h : k = k' <;> simp [h]

/-! ### Handler characterizations -/

theorem broadcast_none_eq (st : ServerState) (room : String)
    (mt : MessageType String) (l : List String)
    (hroom : mapGet st.rooms room = some l)
    (hconn : ∀ v ∈ l, mapContains st.connections v = true) :
    broadcast_to_room st room mt none = l.map fun v => ⟨.conn v, mt⟩ := by
  have hf : (l.filter fun v =>
      decide ((none : Option String) ≠ some v) &&
        mapContains st.connections v) = l :=
    List.filter_eq_self.mpr (fun v hv => by simp [hconn v hv])
  simp only [broadcast_to_room, hroom, hf]

theorem broadcast_exclude_eq (st : ServerState) (room u : String)
    (mt : MessageType String) (l : List String)
    (hroom : mapGet st.rooms room = some l)
    (hconn : ∀ v ∈ l, v ≠ u → mapContains st.connections v = true) :
    broadcast_to_room st room mt (some u) =
      (l.filter fun v => decide (v ≠ u)).map fun v => ⟨.conn v, mt⟩ := by
  have hf : (l.filter fun v =>
      decide (some u ≠ some v) && mapContains st.connections v) =
        l.filter fun v => decide (v ≠ u) := by
    apply List.filter_congr
    intro v hv
    by_cases hvu : v = u
    · subst hvu; simp
    · simp [hvu, Ne.symm hvu, hconn v hv hvu]
  simp only [broadcast_to_room, hroom, hf]

theorem handle_join_room_spec (st : ServerState) (u room old_room : String)
    (usr : User) (l : List String)
    (hu : mapGet st.users u = some usr)
    (hcr : usr.current_room = some old_room)
    (hl : mapGet st.rooms old_room = some l) :
    handle_join_room st u room =
      (let rooms1 := mapInsert st.rooms old_room
          (l.filter fun x => decide (x ≠ u))
       let st1 : ServerState := ⟨st.users, rooms1, st.connections⟩
       let newB := (mapGet rooms1 room).getD [] ++ [u]
       let st3 : ServerState :=
         ⟨mapInsert st.users u ⟨usr.username, some room⟩,
          mapInsert rooms1 room newB, st.connections⟩
       (st3,
        broadcast_to_room st1 old_room (.UserLeft old_room u) (some u)
        ++ [⟨.session,
             .JoinRoomAck true room ("Vous avez rejoint le salon " ++ room)⟩]
        ++ broadcast_to_room st3 room (.UserJoined room u) (some u))) := by
  simp only [handle_join_room, hu, hcr, hl]

theorem handle_join_room_spec_noroom (st : ServerState) (u room : String)
    (usr : User) (hu : mapGet st.users u = some usr)
    (hcr : usr.current_room = none) :
    handle_join_room st u room =
      (let newB := (mapGet st.rooms room).getD [] ++ [u]
       let st3 : ServerState :=
         ⟨mapInsert st.users u ⟨usr.username, some room⟩,
          mapInsert st.rooms room newB, st.connections⟩
       (st3,
        [⟨.session,
           .JoinRoomAck true room ("Vous avez rejoint le salon " ++ room)⟩]
        ++ broadcast_to_room st3 room (.UserJoined room u) (some u))) := by
  simp only [handle_join_room, hu, hcr]
  rfl

theorem cleanup_user_spec_room (st : ServerState) (u room : String)
    (usr : User) (l : List String)
    (hu : mapGet st.users u = some usr)
    (hcr : usr.current_room = some room)
    (hl : mapGet st.rooms room = some l) :
    cleanup_user st u =
      (let rooms1 := mapInsert st.rooms room
          (l.filter fun x => decide (x ≠ u))
       let st1 : ServerState := ⟨st.users, rooms1, st.connections⟩
       (⟨mapRemove st.users u, rooms1, mapRemove st.connections u⟩,
        broadcast_to_room st1 room (.UserLeft room u) (some u))) := by
  simp only [cleanup_user, hu, hcr, hl]

theorem cleanup_user_spec_noroom (st : ServerState) (u : String)
    (usr : User) (hu : mapGet st.users u = some usr)
    (hcr : usr.current_room = none) :
    cleanup_user st u =
      (⟨mapRemove st.users u, st.rooms, mapRemove st.connections u⟩, []) := by
  simp only [cleanup_user, hu, hcr]

theorem cleanup_user_spec_absent (st : ServerState) (u : String)
    (hu : mapGet st.users u = none) :
    cleanup_user st u =
      (⟨mapRemove st.users u, st.rooms, mapRemove st.connections u⟩, []) := by
  simp only [cleanup_user, hu]

theorem cleanup_user_spec_noroomlist (st : ServerState) (u room : String)
    (usr : User) (hu : mapGet st.users u = some usr)
    (hcr : usr.current_room = some room)
    (hl : mapGet st.rooms room = none) :
    cleanup_user st u =
      (⟨mapRemove st.users u, st.rooms, mapRemove st.connections u⟩, []) := by
  simp only [cleanup_user, hu, hcr, hl]

/-! ### From the decidable check to the invariant -/

theorem inv_of_invB (st : ServerState) (h : invB st = true) : Inv st := by
  rw [invB, Bool.and_eq_true, Bool.and_eq_true, Bool.and_eq_true] at h
  obtain ⟨⟨⟨hrooms, husers⟩, hconn1⟩, hconn2⟩ := h
  rw [List.all_eq_true] at hrooms husers hconn1 hconn2
  constructor
  · intro r l hget
    have hall := hrooms (r, l) (mapGet_mem _ _ _ hget)
    rw [Bool.and_eq_true, decide_eq_true_eq] at hall
    exact hall.1
  · intro r l u hget hu
    have hall := hrooms (r, l) (mapGet_mem _ _ _ hget)
    rw [Bool.and_eq_true] at hall
    have hx := List.all_eq_true.mp hall.2 u hu
    cases hg : mapGet st.users u with
    | none => rw [hg] at hx; simp at hx
    | some usr =>
        rw [hg] at hx
        simp only [decide_eq_true_eq] at hx
        exact ⟨usr, rfl, hx⟩
  · intro u usr r hget hcr
    have hx := husers (u, usr) (mapGet_mem _ _ _ hget)
    simp only [hcr] at hx
    cases hg : mapGet st.rooms r with
    | none => rw [hg] at hx; simp at hx
    | some l =>
        rw [hg] at hx
        simp only [decide_eq_true_eq] at hx
        exact ⟨l, rfl, hx⟩
  · intro u
    cases hu : mapContains st.users u with
    | true =>
        obtain ⟨usr, hg⟩ := mapContains_true.mp hu
        have := hconn1 (u, usr) (mapGet_mem _ _ _ hg)
        rw [this]
    | false =>
        cases hc : mapContains st.connections u with
        | false => rfl
        | true =>
            obtain ⟨v, hg⟩ := mapContains_true.mp hc
            have := hconn2 (u, v) (mapGet_mem _ _ _ hg)
            rw [hu] at this
            exact this.symm

/-! ### Invariant preservation -/

theorem atMostOneRoom_of_inv (st : ServerState) (hinv : Inv st) :
    atMostOneRoom st := by
  intro u r1 r2 l1 l2 h1 h2 hu1 hu2
  obtain ⟨usr1, husr1, hcr1⟩ := hinv.mem_users r1 l1 u h1 hu1
  obtain ⟨usr2, husr2, hcr2⟩ := hinv.mem_users r2 l2 u h2 hu2
  rw [husr1] at husr2
  obtain rfl := Option.some.inj husr2
  rw [hcr1] at hcr2
  exact Option.some.inj hcr2

theorem Inv_join_aux (st : ServerState) (u room : String) (usr : User)
    (hu : mapGet st.users u = some usr)
    (roomsMid : List (String × List String))
    (nodupMid : ∀ r l, mapGet roomsMid r = some l → l.Nodup)
    (memMid : ∀ r l v, mapGet roomsMid r = some l → v ∈ l →
      v ≠ u ∧ ∃ usr2, mapGet st.users v = some usr2 ∧
        usr2.current_room = some r)
    (roomMemMid : ∀ v usr2 r, v ≠ u → mapGet st.users v = some usr2 →
      usr2.current_room = some r →
      ∃ l, mapGet roomsMid r = some l ∧ v ∈ l)
    (hconn : ∀ v, mapContains st.connections v = mapContains st.users v) :
    Inv ⟨mapInsert st.users u ⟨usr.username, some room⟩,
      mapInsert roomsMid room ((mapGet roomsMid room).getD [] ++ [u]),
      st.connections⟩ := by
  have hnotinB : u ∉ (mapGet roomsMid room).getD [] := by
    cases hB : mapGet roomsMid room with
    | none => simp
    | some lB =>
        simp only [Option.getD_some]
        intro hmem
        exact (memMid room lB u hB hmem).1 rfl
  have hnodupB : ((mapGet roomsMid room).getD []).Nodup := by
    cases hB : mapGet roomsMid room with
    | none => simp
    | some lB => simpa using nodupMid room lB hB
  constructor
  · intro r l hget
    rw [mapGet_insert] at hget
    by_cases hrr : room = r
    · rw [if_pos hrr] at hget
      obtain rfl := Option.some.inj hget
      simpa using List.Nodup.append hnodupB (by simp)
        (by simpa using hnotinB)
    · rw [if_neg hrr] at hget
      exact nodupMid r l hget
  · intro r l v hget hv
    rw [mapGet_insert] at hget
    by_cases hrr : room = r
    · rw [if_pos hrr] at hget
      obtain rfl := Option.some.inj hget
      rw [List.mem_append] at hv
      rcases hv with hv | hv
      · obtain ⟨hvu, usr2, husr2, hcr2⟩ := by
          cases hB : mapGet roomsMid room with
          | none => rw [hB] at hv; simp at hv
          | some lB =>
              rw [hB] at hv
              simp only [Option.getD_some] at hv
              exact memMid room lB v hB hv
        refine ⟨usr2, ?_, by rw [← hrr]; exact hcr2⟩
        rw [mapGet_insert, if_neg (fun he => hvu he.symm)]
        exact husr2
      · simp only [List.mem_singleton] at hv
        subst hv
        refine ⟨⟨usr.username, some room⟩, ?_, by rw [hrr]⟩
        rw [mapGet_insert, if_pos rfl]
    · rw [if_neg hrr] at hget
      obtain ⟨hvu, usr2, husr2, hcr2⟩ := memMid r l v hget hv
      refine ⟨usr2, ?_, hcr2⟩
      rw [mapGet_insert, if_neg (fun he => hvu he.symm)]
      exact husr2
  · intro v usr2 r hv hcr2
    rw [mapGet_insert] at hv
    by_cases huv : u = v
    · rw [if_pos huv] at hv
      obtain rfl := Option.some.inj hv
      simp only at hcr2
      obtain rfl := Option.some.inj hcr2
      refine ⟨(mapGet roomsMid room).getD [] ++ [u], ?_, by simp [huv]⟩
      rw [mapGet_insert, if_pos rfl]
    · rw [if_neg huv] at hv
      obtain ⟨l2, hl2, hvl2⟩ :=
        roomMemMid v usr2 r (fun he => huv he.symm) hv hcr2
      by_cases hrr : room = r
      · refine ⟨(mapGet roomsMid room).getD [] ++ [u], ?_, ?_⟩
        · rw [mapGet_insert, if_pos hrr]
        · rw [hrr, hl2]
          simp [hvl2]
      · refine ⟨l2, ?_, hvl2⟩
        rw [mapGet_insert, if_neg hrr]
        exact hl2
  · intro v
    rw [mapContains_insert, hconn v]
    by_cases huv : u = v
    · rw [← huv]
      have : mapContains st.users u = true := mapContains_true.mpr ⟨usr, hu⟩
      simp [this]
    · simp [huv]

theorem Inv_handle_connect (st : ServerState) (name : String)
    (cu : Option String) (hinv : Inv st) :
    Inv (handle_connect st name cu).1 := by
  rw [handle_connect]
  by_cases hc : mapContains st.users name = true
  · rw [if_pos hc]
    exact hinv
  · rw [if_neg hc]
    have hget0 : mapGet st.users name = none :=
      mapContains_false.mp (by simpa using hc)
    constructor
    · intro r l h
      exact hinv.nodup r l h
    · intro r l v hget hv
      obtain ⟨usr, husr, hcr⟩ := hinv.mem_users r l v hget hv
      refine ⟨usr, ?_, hcr⟩
      rw [mapGet_insert]
      by_cases hnv : name = v
      · exfalso
        rw [hnv, husr] at hget0
        exact Option.noConfusion hget0
      · rw [if_neg hnv]
        exact husr
    · intro v usr r hv hcr
      rw [mapGet_insert] at hv
      by_cases hnv : name = v
      · rw [if_pos hnv] at hv
        obtain rfl := Option.some.inj hv
        exact Option.noConfusion hcr
      · rw [if_neg hnv] at hv
        exact hinv.room_mem v usr r hv hcr
    · intro v
      rw [mapContains_insert, mapContains_insert, hinv.conn_users v]

theorem Inv_cleanup_user (st : ServerState) (u : String) (hinv : Inv st) :
    Inv (cleanup_user st u).1 := by
  cases hu : mapGet st.users u with
  | none =>
      rw [cleanup_user_spec_absent st u hu]
      have h1 : mapRemove st.users u = st.users :=
        mapRemove_of_get_none _ _ hu
      have h2 : mapRemove st.connections u = st.connections :=
        mapRemove_of_get_none _ _
          (mapContains_false.mp
            (by rw [hinv.conn_users u]; exact mapContains_false.mpr hu))
      rw [h1, h2]
      exact hinv
  | some usr =>
      cases hcr : usr.current_room with
      | none =>
          rw [cleanup_user_spec_noroom st u usr hu hcr]
          constructor
          · intro r l h
            exact hinv.nodup r l h
          · intro r l v hget hv
            obtain ⟨usr2, husr2, hcr2⟩ := hinv.mem_users r l v hget hv
            have hvu : ¬u = v := by
              intro he
              rw [← he, hu] at husr2
              obtain rfl := Option.some.inj husr2
              rw [hcr] at hcr2
              exact Option.noConfusion hcr2
            refine ⟨usr2, ?_, hcr2⟩
            rw [mapGet_remove, if_neg hvu]
            exact husr2
          · intro v usr2 r hv hcr2
            rw [mapGet_remove] at hv
            by_cases huv : u = v
            · rw [if_pos huv] at hv
              exact Option.noConfusion hv
            · rw [if_neg huv] at hv
              exact hinv.room_mem v usr2 r hv hcr2
          · intro v
            rw [mapContains_remove, mapContains_remove, hinv.conn_users v]
      | some room =>
          obtain ⟨l, hl, hml⟩ := hinv.room_mem u usr room hu hcr
          rw [cleanup_user_spec_room st u room usr l hu hcr hl]
          constructor
          · intro r l' hget
            rw [mapGet_insert] at hget
            by_cases hrr : room = r
            · rw [if_pos hrr] at hget
              obtain rfl := Option.some.inj hget
              exact (hinv.nodup room l hl).filter _
            · rw [if_neg hrr] at hget
              exact hinv.nodup r l' hget
          · intro r l' v hget hv
            rw [mapGet_insert] at hget
            by_cases hrr : room = r
            · rw [if_pos hrr] at hget
              obtain rfl := Option.some.inj hget
              rw [List.mem_filter, decide_eq_true_eq] at hv
              obtain ⟨hvl, hvu⟩ := hv
              obtain ⟨usr2, husr2, hcr2⟩ := hinv.mem_users room l v hl hvl
              refine ⟨usr2, ?_, by rw [← hrr]; exact hcr2⟩
              rw [mapGet_remove, if_neg (fun he => hvu he.symm)]
              exact husr2
            · rw [if_neg hrr] at hget
              obtain ⟨usr2, husr2, hcr2⟩ := hinv.mem_users r l' v hget hv
              have hvu : ¬u = v := by
                intro he
                rw [← he, hu] at husr2
                obtain rfl := Option.some.inj husr2
                rw [hcr] at hcr2
                exact hrr (Option.some.inj hcr2)
              refine ⟨usr2, ?_, hcr2⟩
              rw [mapGet_remove, if_neg hvu]
              exact husr2
          · intro v usr2 r hv hcr2
            rw [mapGet_remove] at hv
            by_cases huv : u = v
            · rw [if_pos huv] at hv
              exact Option.noConfusion hv
            · rw [if_neg huv] at hv
              obtain ⟨l2, hl2, hvl2⟩ := hinv.room_mem v usr2 r hv hcr2
              rw [mapGet_insert]
              by_cases hrr : room = r
              · rw [if_pos hrr]
                refine ⟨_, rfl, ?_⟩
                rw [← hrr, hl] at hl2
                obtain rfl := Option.some.inj hl2
                rw [List.mem_filter, decide_eq_true_eq]
                exact ⟨hvl2, fun he => huv he.symm⟩
              · rw [if_neg hrr]
                exact ⟨l2, hl2, hvl2⟩
          · intro v
            rw [mapContains_remove, mapContains_remove, hinv.conn_users v]

theorem Inv_handle_join_room (st : ServerState) (u room : String)
    (hinv : Inv st) (hc : mapContains st.users u = true) :
    Inv (handle_join_room st u room).1 := by
  obtain ⟨usr, hu⟩ := mapContains_true.mp hc
  cases hcr : usr.current_room with
  | none =>
      rw [handle_join_room_spec_noroom st u room usr hu hcr]
      refine Inv_join_aux st u room usr hu st.rooms hinv.nodup ?_ ?_
        hinv.conn_users
      · intro r l v hget hv
        obtain ⟨usr2, husr2, hcr2⟩ := hinv.mem_users r l v hget hv
        refine ⟨?_, usr2, husr2, hcr2⟩
        intro he
        rw [he, hu] at husr2
        obtain rfl := Option.some.inj husr2
        rw [hcr] at hcr2
        exact Option.noConfusion hcr2
      · intro v usr2 r hvu husr2 hcr2
        exact hinv.room_mem v usr2 r husr2 hcr2
  | some old_room =>
      obtain ⟨l, hl, hml⟩ := hinv.room_mem u usr old_room hu hcr
      rw [handle_join_room_spec st u room old_room usr l hu hcr hl]
      refine Inv_join_aux st u room usr hu
        (mapInsert st.rooms old_room (l.filter fun x => decide (x ≠ u)))
        ?_ ?_ ?_ hinv.conn_users
      · intro r l' hget
        rw [mapGet_insert] at hget
        by_cases hrr : old_room = r
        · rw [if_pos hrr] at hget
          obtain rfl := Option.some.inj hget
          exact (hinv.nodup old_room l hl).filter _
        · rw [if_neg hrr] at hget
          exact hinv.nodup r l' hget
      · intro r l' v hget hv
        rw [mapGet_insert] at hget
        by_cases hrr : old_room = r
        · rw [if_pos hrr] at hget
          obtain rfl := Option.some.inj hget
          rw [List.mem_filter, decide_eq_true_eq] at hv
          obtain ⟨hvl, hvu⟩ := hv
          obtain ⟨usr2, husr2, hcr2⟩ := hinv.mem_users old_room l v hl hvl
          exact ⟨hvu, usr2, husr2, by rw [← hrr]; exact hcr2⟩
        · rw [if_neg hrr] at hget
          obtain ⟨usr2, husr2, hcr2⟩ := hinv.mem_users r l' v hget hv
          refine ⟨?_, usr2, husr2, hcr2⟩
          intro he
          rw [he, hu] at husr2
          obtain rfl := Option.some.inj husr2
          rw [hcr] at hcr2
          exact hrr (Option.some.inj hcr2)
      · intro v usr2 r hvu husr2 hcr2
        obtain ⟨l2, hl2, hvl2⟩ := hinv.room_mem v usr2 r husr2 hcr2
        rw [mapGet_insert]
        by_cases hrr : old_room = r
        · rw [if_pos hrr]
          refine ⟨_, rfl, ?_⟩
          rw [← hrr, hl] at hl2
          obtain rfl := Option.some.inj hl2
          rw [List.mem_filter, decide_eq_true_eq]
          exact ⟨hvl2, hvu⟩
        · rw [if_neg hrr]
          exact ⟨l2, hl2, hvl2⟩

theorem cleanup_user_users (st : ServerState) (u : String) :
    (cleanup_user st u).1.users = mapRemove st.users u := by
  cases hu : mapGet st.users u with
  | none => rw [cleanup_user_spec_absent st u hu]
  | some usr =>
      cases hcr : usr.current_room with
      | none => rw [cleanup_user_spec_noroom st u usr hu hcr]
      | some room =>
          cases hl : mapGet st.rooms room with
          | none => rw [cleanup_user_spec_noroomlist st u room usr hu hcr hl]
          | some l => rw [cleanup_user_spec_room st u room usr l hu hcr hl]

theorem filter_filter_self {α : Type} (l : List α) (f : α → Bool) :
    (l.filter f).filter f = l.filter f := by
  rw [List.filter_filter]
  apply List.filter_congr
  intro a _
  rw [Bool.and_self]

theorem members_connected (st : ServerState) (room : String)
    (l : List String) (hinv : Inv st) (hl : mapGet st.rooms room = some l) :
    ∀ v ∈ l, mapContains st.connections v = true := by
  intro v hv
  obtain ⟨usr2, husr2, _⟩ := hinv.mem_users room l v hl hv
  rw [hinv.conn_users v]
  exact mapContains_true.mpr ⟨usr2, husr2⟩

/-! ### The claims -/

/-- C2 is false as stated: a `ListRooms` arriving on a fresh,
unauthenticated session is served normally — the reply is `RoomList []`,
not an `Error` meaning "not connected" (`process_message` checks
authentication only for `JoinRoom` and `SendMessage`). -/
theorem tp8_C2_counterexample :
    process_message st0 .ListRooms none 0 =
      ⟨st0, none, true, [⟨.session, .RoomList []⟩]⟩ := by
  rfl

/-- C2 (amended): on an unauthenticated session, `JoinRoom` and
`SendMessage` are answered with `Error("Non connecté")` and nothing
changes; `ListRooms` and `ListUsers` are served normally without any
authentication check; a server-to-client variant is answered with
`Error("Message non supporté")`; in every case the registry is untouched
and the session stays unauthenticated. -/
theorem tp8_C2_unauthenticated (st : ServerState) (room content : String)
    (now : Nat) (mt : MessageType String)
    (hs2c : mt.isServerToClient = true) :
    process_message st (.JoinRoom room) none now =
      ⟨st, none, true, [⟨.session, .Error "Non connecté"⟩]⟩ ∧
    process_message st (.SendMessage room content) none now =
      ⟨st, none, true, [⟨.session, .Error "Non connecté"⟩]⟩ ∧
    process_message st .ListRooms none now =
      ⟨st, none, true, [⟨.session, .RoomList (mapKeys st.rooms)⟩]⟩ ∧
    process_message st (.ListUsers room) none now =
      ⟨st, none, true,
        [⟨.session, .UserList room ((mapGet st.rooms room).getD [])⟩]⟩ ∧
    process_message st mt none now =
      ⟨st, none, true, [⟨.session, .Error "Message non supporté"⟩]⟩ := by
  refine ⟨rfl, rfl, rfl, rfl, ?_⟩
  cases mt <;> first
    | rfl
    | simp [MessageType.isServerToClient] at hs2c

/-- Witness for the amended C2 at a concrete server-to-client message. -/
theorem tp8_C2_unauthenticated_witness :
    process_message st0 (.ConnectAck true "x") none 0 =
      ⟨st0, none, true, [⟨.session, .Error "Message non supporté"⟩]⟩ :=
  (tp8_C2_unauthenticated st0 "r" "c" 0 (.ConnectAck true "x")
    (by decide)).2.2.2.2

/-- C3 is false as stated: user `a` (in room `r`) sends to room `s`,
which it is not in; the server sends nothing at all — in particular no
`Error` reply to the sender (`handle_send_message` silently returns). -/
theorem tp8_C3_counterexample :
    process_message stAB (.SendMessage "s" "hi") (some "a") 0 =
      ⟨stAB, some "a", true, []⟩ := by
  rfl

/-- C3 (amended): a `SendMessage` from an authenticated user whose
`current_room` differs from the target room is silently ignored: no
broadcast, no reply of any kind, state unchanged, and the read loop
continues. -/
theorem tp8_C3_send_wrong_room (st : ServerState) (u room content : String)
    (now : Nat) (usr : User) (hu : mapGet st.users u = some usr)
    (hcr : usr.current_room ≠ some room) :
    process_message st (.SendMessage room content) (some u) now =
      ⟨st, some u, true, []⟩ := by
  simp only [process_message, handle_send_message, hu]
  rw [if_neg hcr]

/-- Witness for the amended C3: `a` is in `r`, sends to `s`. -/
theorem tp8_C3_send_wrong_room_witness :
    process_message stAB (.SendMessage "s" "hi") (some "a") 5 =
      ⟨stAB, some "a", true, []⟩ :=
  tp8_C3_send_wrong_room stAB "a" "s" "hi" 5 ⟨"a", some "r"⟩
    (by decide) (by decide)

/-- C6: a `Connect` with a name already in the user map is refused with
`ConnectAck(success := false)` and the whole step changes nothing (state
and session binding are returned untouched); after `cleanup_user` runs
for that name, the name is free again and the same `Connect` succeeds
with `ConnectAck(success := true)`, registering the user and its
connection handle. -/
theorem tp8_C6_connect_taken (st : ServerState) (name : String)
    (cu : Option String) (now : Nat)
    (htaken : mapContains st.users name = true) :
    process_message st (.Connect name) cu now =
      ⟨st, cu, true,
        [⟨.session,
          .ConnectAck false "Nom d\x27utilisateur déjà utilisé"⟩]⟩ ∧
    mapContains (cleanup_user st name).1.users name = false ∧
    process_message (cleanup_user st name).1 (.Connect name) cu now =
      ⟨⟨mapInsert (cleanup_user st name).1.users name ⟨name, none⟩,
        (cleanup_user st name).1.rooms,
        mapInsert (cleanup_user st name).1.connections name ()⟩,
       some name, true,
       [⟨.session, .ConnectAck true ("Bienvenue, " ++ name ++ " !")⟩]⟩ := by
  have hfree : mapContains (cleanup_user st name).1.users name = false := by
    rw [cleanup_user_users, mapContains_remove]
    simp
  refine ⟨?_, hfree, ?_⟩
  · simp only [process_message, handle_connect]
    rw [if_pos htaken]
  · simp only [process_message, handle_connect]
    rw [if_neg (by rw [hfree]; exact Bool.false_ne_true)]

/-- Witness for C6 with the taken name `a` of `stAB`. -/
theorem tp8_C6_connect_taken_witness :
    process_message stAB (.Connect "a") none 0 =
      ⟨stAB, none, true,
        [⟨.session,
          .ConnectAck false "Nom d\x27utilisateur déjà utilisé"⟩]⟩ ∧
    mapContains (cleanup_user stAB "a").1.users "a" = false ∧
    process_message (cleanup_user stAB "a").1 (.Connect "a") none 0 =
      ⟨⟨mapInsert (cleanup_user stAB "a").1.users "a" ⟨"a", none⟩,
        (cleanup_user stAB "a").1.rooms,
        mapInsert (cleanup_user stAB "a").1.connections "a" ()⟩,
       some "a", true,
       [⟨.session, .ConnectAck true ("Bienvenue, " ++ "a" ++ " !")⟩]⟩ :=
  tp8_C6_connect_taken stAB "a" none 0 (by decide)

/-- C9: `ListUsers(room)` replies with exactly the room's current member
list — the stored join-ordered list, empty for an unknown room — leaving
everything else unchanged; under the registry invariant that list has no
duplicates. -/
theorem tp8_C9_list_users (st : ServerState) (room : String)
    (cu : Option String) (now : Nat) (hinv : Inv st) :
    process_message st (.ListUsers room) cu now =
      ⟨st, cu, true,
        [⟨.session, .UserList room ((mapGet st.rooms room).getD [])⟩]⟩ ∧
    ((mapGet st.rooms room).getD []).Nodup := by
  refine ⟨rfl, ?_⟩
  cases hB : mapGet st.rooms room with
  | none => simp
  | some l => simpa using hinv.nodup room l hB

/-- Witness for C9 on `stAB` and room `r`. -/
theorem tp8_C9_list_users_witness :
    process_message stAB (.ListUsers "r") (some "a") 0 =
      ⟨stAB, some "a", true,
        [⟨.session,
          .UserList "r" ((mapGet stAB.rooms "r").getD [])⟩]⟩ ∧
    ((mapGet stAB.rooms "r").getD []).Nodup :=
  tp8_C9_list_users stAB "r" (some "a") 0 (inv_of_invB stAB (by decide))

/-- C10: a session already bound to `name1` may `Connect` again as a
fresh `name2`: the server only checks that `name2` is free, registers
`name2` (user map and connection map), acknowledges with success, and
rebinds the session's `current_user` to `name2`; `name1`'s user entry,
connection entry and room memberships stay in place, and the session's
eventual cleanup (which runs for `name2`) removes none of them. -/
theorem tp8_C10_connect_rebind (st : ServerState) (name1 name2 : String)
    (now : Nat) (h1 : mapContains st.users name1 = true)
    (h2 : mapContains st.users name2 = false) :
    process_message st (.Connect name2) (some name1) now =
      ⟨⟨mapInsert st.users name2 ⟨name2, none⟩, st.rooms,
        mapInsert st.connections name2 ()⟩, some name2, true,
       [⟨.session, .ConnectAck true ("Bienvenue, " ++ name2 ++ " !")⟩]⟩ ∧
    mapGet (mapInsert st.users name2 ⟨name2, none⟩) name1 =
      mapGet st.users name1 ∧
    mapGet (cleanup_user
        ⟨mapInsert st.users name2 ⟨name2, none⟩, st.rooms,
         mapInsert st.connections name2 ()⟩ name2).1.users name1 =
      mapGet st.users name1 ∧
    (cleanup_user
        ⟨mapInsert st.users name2 ⟨name2, none⟩, st.rooms,
         mapInsert st.connections name2 ()⟩ name2).1.rooms = st.rooms ∧
    mapGet (cleanup_user
        ⟨mapInsert st.users name2 ⟨name2, none⟩, st.rooms,
         mapInsert st.connections name2 ()⟩ name2).1.connections name1 =
      mapGet st.connections name1 := by
  have hne : ¬name2 = name1 := by
    intro he
    rw [he, h1] at h2
    exact Bool.noConfusion h2
  have hcl := cleanup_user_spec_noroom
    ⟨mapInsert st.users name2 ⟨name2, none⟩, st.rooms,
     mapInsert st.connections name2 ()⟩ name2 ⟨name2, none⟩
    (by rw [mapGet_insert, if_pos rfl]) rfl
  refine ⟨?_, ?_, ?_, ?_, ?_⟩
  · simp only [process_message, handle_connect]
    rw [if_neg (by rw [h2]; exact Bool.false_ne_true)]
  · rw [mapGet_insert, if_neg hne]
  · rw [hcl, mapGet_remove, if_neg hne, mapGet_insert, if_neg hne]
  · rw [hcl]
  · rw [hcl, mapGet_remove, if_neg hne, mapGet_insert, if_neg hne]

/-- C4: a `SendMessage` from a user whose `current_room` is the target
room is fanned out (no exclusion) to the stored member list of the room:
every current member — the sender included — receives exactly one
`MessageBroadcast` carrying the room, the sender's username, the content
and the timestamp, and the registry is unchanged; if the sender's
`current_room` is not the room, nothing at all is sent. -/
theorem tp8_C4_send_in_room (st : ServerState) (u room content : String)
    (now : Nat) (usr : User) (hinv : Inv st)
    (hu : mapGet st.users u = some usr) :
    (usr.current_room = some room →
      ∃ members, mapGet st.rooms room = some members ∧ u ∈ members ∧
        (process_message st (.SendMessage room content) (some u) now).state
          = st ∧
        (process_message st (.SendMessage room content)
            (some u) now).sent
          = members.map
              (fun v => ⟨.conn v, .MessageBroadcast room u content now⟩) ∧
        ∀ v ∈ members,
          ((process_message st (.SendMessage room content)
              (some u) now).sent.count
            ⟨.conn v, .MessageBroadcast room u content now⟩) = 1) ∧
    (usr.current_room ≠ some room →
      (process_message st (.SendMessage room content) (some u) now).sent
        = []) := by
  constructor
  · intro hcr
    obtain ⟨members, hm, hum⟩ := hinv.room_mem u usr room hu hcr
    have hconn := members_connected st room members hinv hm
    have hb := broadcast_none_eq st room
      (.MessageBroadcast room u content now) members hm hconn
    have hps : process_message st (.SendMessage room content)
        (some u) now =
        ⟨st, some u, true,
          members.map fun v =>
            ⟨.conn v, .MessageBroadcast room u content now⟩⟩ := by
      simp only [process_message, handle_send_message, hu]
      rw [if_pos hcr, hb]
    refine ⟨members, hm, hum, by rw [hps], by rw [hps], ?_⟩
    intro v hv
    rw [hps]
    show (members.map fun w =>
        (⟨.conn w, .MessageBroadcast room u content now⟩ : Sent)).count
        ⟨.conn v, .MessageBroadcast room u content now⟩ = 1
    have hnd : (members.map fun w =>
        (⟨.conn w, .MessageBroadcast room u content now⟩ : Sent)).Nodup :=
      List.Nodup.map (fun a b hab => by simpa using hab)
        (hinv.nodup room members hm)
    exact List.count_eq_one_of_mem hnd (List.mem_map_of_mem _ hv)
  · intro hcr
    simp only [process_message, handle_send_message, hu]
    rw [if_neg hcr]

/-- Witness for C4 on `stAB`: `a` sends to its room `r`. -/
theorem tp8_C4_send_in_room_witness :
    ((User.mk "a" (some "r")).current_room = some "r" →
      ∃ members, mapGet stAB.rooms "r" = some members ∧ "a" ∈ members ∧
        (process_message stAB (.SendMessage "r" "hi") (some "a") 5).state
          = stAB ∧
        (process_message stAB (.SendMessage "r" "hi") (some "a") 5).sent
          = members.map
              (fun v => ⟨.conn v, .MessageBroadcast "r" "a" "hi" 5⟩) ∧
        ∀ v ∈ members,
          ((process_message stAB (.SendMessage "r" "hi")
              (some "a") 5).sent.count
            ⟨.conn v, .MessageBroadcast "r" "a" "hi" 5⟩) = 1) ∧
    ((User.mk "a" (some "r")).current_room ≠ some "r" →
      (process_message stAB (.SendMessage "r" "hi") (some "a") 5).sent
        = []) :=
  tp8_C4_send_in_room stAB "a" "r" "hi" 5 ⟨"a", some "r"⟩
    (inv_of_invB stAB (by decide)) (by decide)

/-- C7: when a session bound to user `u` closes, `cleanup_user` removes
`u` from its current room's member list, sends `UserLeft` to exactly the
remaining members of that room, and deletes `u` from the user map and
the connection map; running it for a username absent from the user map
changes nothing and sends nothing (a no-op, not an error). -/
theorem tp8_C7_cleanup (st : ServerState) (u room : String) (usr : User)
    (hinv : Inv st) :
    (mapGet st.users u = some usr → usr.current_room = some room →
      ∃ members, mapGet st.rooms room = some members ∧
        mapGet (cleanup_user st u).1.rooms room =
          some (members.filter fun v => decide (v ≠ u)) ∧
        mapGet (cleanup_user st u).1.users u = none ∧
        mapGet (cleanup_user st u).1.connections u = none ∧
        (cleanup_user st u).2 =
          (members.filter fun v => decide (v ≠ u)).map
            fun v => ⟨.conn v, .UserLeft room u⟩) ∧
    (mapGet st.users u = none → cleanup_user st u = (st, [])) := by
  constructor
  · intro hu hcr
    obtain ⟨members, hm, hum⟩ := hinv.room_mem u usr room hu hcr
    have hcl := cleanup_user_spec_room st u room usr members hu hcr hm
    have hroom1 : mapGet (mapInsert st.rooms room
        (members.filter fun x => decide (x ≠ u))) room =
        some (members.filter fun x => decide (x ≠ u)) := by
      rw [mapGet_insert, if_pos rfl]
    have hconn1 : ∀ v ∈ members.filter fun x => decide (x ≠ u), v ≠ u →
        mapContains st.connections v = true := fun v hv _ =>
      members_connected st room members hinv hm v (List.mem_of_mem_filter hv)
    have hbc := broadcast_exclude_eq
      ⟨st.users,
       mapInsert st.rooms room (members.filter fun x => decide (x ≠ u)),
       st.connections⟩
      room u (.UserLeft room u)
      (members.filter fun x => decide (x ≠ u)) hroom1 hconn1
    rw [filter_filter_self] at hbc
    refine ⟨members, hm, ?_, ?_, ?_, ?_⟩
    · rw [hcl]
      show mapGet (mapInsert st.rooms room
        (members.filter fun x => decide (x ≠ u))) room = _
      exact hroom1
    · rw [hcl]
      show mapGet (mapRemove st.users u) u = none
      rw [mapGet_remove, if_pos rfl]
    · rw [hcl]
      show mapGet (mapRemove st.connections u) u = none
      rw [mapGet_remove, if_pos rfl]
    · rw [hcl]
      exact hbc
  · intro hu
    have h1 : mapRemove st.users u = st.users := mapRemove_of_get_none _ _ hu
    have h2 : mapRemove st.connections u = st.connections :=
      mapRemove_of_get_none _ _
        (mapContains_false.mp
          (by rw [hinv.conn_users u]; exact mapContains_false.mpr hu))
    rw [cleanup_user_spec_absent st u hu, h1, h2]

/-- Witness for C7 on `stAB`: cleanup of `a` (in room `r`), and the
no-op on the absent name `z`. -/
theorem tp8_C7_cleanup_witness :
    (mapGet stAB.users "a" = some ⟨"a", some "r"⟩ →
      (User.mk "a" (some "r")).current_room = some "r" →
      ∃ members, mapGet stAB.rooms "r" = some members ∧
        mapGet (cleanup_user stAB "a").1.rooms "r" =
          some (members.filter fun v => decide (v ≠ "a")) ∧
        mapGet (cleanup_user stAB "a").1.users "a" = none ∧
        mapGet (cleanup_user stAB "a").1.connections "a" = none ∧
        (cleanup_user stAB "a").2 =
          (members.filter fun v => decide (v ≠ "a")).map
            fun v => ⟨.conn v, .UserLeft "r" "a"⟩) ∧
    (mapGet stAB.users "a" = none → cleanup_user stAB "a" = (stAB, [])) :=
  tp8_C7_cleanup stAB "a" "r" ⟨"a", some "r"⟩ (inv_of_invB stAB (by decide))

/-- C5: for an authenticated user `u` currently in room `A`, processing
`JoinRoom(B)` removes `u` from `A`'s member list and sends `UserLeft{A,u}`
to exactly the remaining members of `A`; appends `u` to `B`'s member list
(creating `B` lazily) and sets `u.current_room := B`; replies
`JoinRoomAck(success := true)`; sends `UserJoined{B,u}` to every member
of `B` except `u`; and afterwards `u` is a member of `B` only. -/
theorem tp8_C5_join_room (st : ServerState) (u A B : String) (usr : User)
    (now : Nat) (hinv : Inv st) (hu : mapGet st.users u = some usr)
    (hA : usr.current_room = some A) :
    ∃ oldA oldB,
      mapGet st.rooms A = some oldA ∧
      (A ≠ B → oldB = (mapGet st.rooms B).getD []) ∧
      (A = B → oldB = oldA.filter fun v => decide (v ≠ u)) ∧
      u ∉ oldB ∧
      mapGet (process_message st (.JoinRoom B) (some u) now).state.users u
        = some ⟨usr.username, some B⟩ ∧
      mapGet (process_message st (.JoinRoom B) (some u) now).state.rooms B
        = some (oldB ++ [u]) ∧
      (A ≠ B →
        mapGet (process_message st (.JoinRoom B) (some u) now).state.rooms A
          = some (oldA.filter fun v => decide (v ≠ u))) ∧
      (∀ r l,
        mapGet (process_message st (.JoinRoom B) (some u) now).state.rooms r
          = some l → u ∈ l → r = B) ∧
      (process_message st (.JoinRoom B) (some u) now).sent =
        ((oldA.filter fun v => decide (v ≠ u)).map
            fun v => ⟨.conn v, .UserLeft A u⟩)
        ++ [⟨.session,
             .JoinRoomAck true B ("Vous avez rejoint le salon " ++ B)⟩]
        ++ (oldB.map fun v => ⟨.conn v, .UserJoined B u⟩) ∧
      (process_message st (.JoinRoom B) (some u) now).current_user
        = some u ∧
      (process_message st (.JoinRoom B) (some u) now).continue_loop
        = true := by
  obtain ⟨oldA, hlA, humA⟩ := hinv.room_mem u usr A hu hA
  have hjr := handle_join_room_spec st u B A usr oldA hu hA hlA
  have hps : process_message st (.JoinRoom B) (some u) now =
      ⟨(handle_join_room st u B).1, some u, true,
       (handle_join_room st u B).2⟩ := rfl
  have hget1B : mapGet
      (mapInsert st.rooms A (oldA.filter fun x => decide (x ≠ u))) B =
      if A = B then some (oldA.filter fun x => decide (x ≠ u))
      else mapGet st.rooms B := mapGet_insert _ _ _ _
  have hconnOldA := members_connected st A oldA hinv hlA
  have hnotB : u ∉ (mapGet
      (mapInsert st.rooms A (oldA.filter fun x => decide (x ≠ u)))
      B).getD [] := by
    rw [hget1B]
    by_cases hAB : A = B
    · rw [if_pos hAB]
      simp only [Option.getD_some]
      intro hmem
      rw [List.mem_filter, decide_eq_true_eq] at hmem
      exact hmem.2 rfl
    · rw [if_neg hAB]
      cases hB : mapGet st.rooms B with
      | none => simp
      | some lB =>
          simp only [Option.getD_some]
          intro hmem
          obtain ⟨usr2, husr2, hcr2⟩ := hinv.mem_users B lB u hB hmem
          rw [hu] at husr2
          obtain rfl := Option.some.inj husr2
          rw [hA] at hcr2
          exact hAB (Option.some.inj hcr2)
  have hconnB : ∀ v ∈ (mapGet
      (mapInsert st.rooms A (oldA.filter fun x => decide (x ≠ u)))
      B).getD [], mapContains st.connections v = true := by
    rw [hget1B]
    by_cases hAB : A = B
    · rw [if_pos hAB]
      simp only [Option.getD_some]
      intro v hv
      exact hconnOldA v (List.mem_of_mem_filter hv)
    · rw [if_neg hAB]
      cases hB : mapGet st.rooms B with
      | none => simp
      | some lB =>
          simp only [Option.getD_some]
          exact members_connected st B lB hinv hB
  refine ⟨oldA,
    (mapGet (mapInsert st.rooms A (oldA.filter fun x => decide (x ≠ u)))
      B).getD [],
    hlA, ?_, ?_, hnotB, ?_, ?_, ?_, ?_, ?_, by rw [hps], by rw [hps]⟩
  · intro hAB
    rw [hget1B, if_neg hAB]
  · intro hAB
    rw [hget1B, if_pos hAB, Option.getD_some]
  · rw [hps, hjr]
    show mapGet (mapInsert st.users u ⟨usr.username, some B⟩) u = _
    rw [mapGet_insert, if_pos rfl]
  · rw [hps, hjr]
    show mapGet (mapInsert
      (mapInsert st.rooms A (oldA.filter fun x => decide (x ≠ u))) B
      ((mapGet (mapInsert st.rooms A
          (oldA.filter fun x => decide (x ≠ u))) B).getD [] ++ [u])) B = _
    rw [mapGet_insert, if_pos rfl]
  · intro hAB
    rw [hps, hjr]
    show mapGet (mapInsert
      (mapInsert st.rooms A (oldA.filter fun x => decide (x ≠ u))) B
      ((mapGet (mapInsert st.rooms A
          (oldA.filter fun x => decide (x ≠ u))) B).getD [] ++ [u])) A = _
    rw [mapGet_insert, if_neg (fun he => hAB he.symm), mapGet_insert,
      if_pos rfl]
  · intro r l hget hul
    have hget2 : mapGet (mapInsert
        (mapInsert st.rooms A (oldA.filter fun x => decide (x ≠ u))) B
        ((mapGet (mapInsert st.rooms A
            (oldA.filter fun x => decide (x ≠ u))) B).getD [] ++ [u])) r
        = some l := by
      rw [hps, hjr] at hget
      exact hget
    rw [mapGet_insert] at hget2
    by_cases hBr : B = r
    · exact hBr.symm
    · exfalso
      rw [if_neg hBr, mapGet_insert] at hget2
      by_cases hAr : A = r
      · rw [if_pos hAr] at hget2
        obtain rfl := Option.some.inj hget2
        rw [List.mem_filter, decide_eq_true_eq] at hul
        exact hul.2 rfl
      · rw [if_neg hAr] at hget2
        obtain ⟨usr2, husr2, hcr2⟩ := hinv.mem_users r l u hget2 hul
        rw [hu] at husr2
        obtain rfl := Option.some.inj husr2
        rw [hA] at hcr2
        exact hAr (Option.some.inj hcr2)
  · have hroomA : mapGet
        (mapInsert st.rooms A (oldA.filter fun x => decide (x ≠ u))) A =
        some (oldA.filter fun x => decide (x ≠ u)) := by
      rw [mapGet_insert, if_pos rfl]
    have hbcA := broadcast_exclude_eq
      ⟨st.users,
       mapInsert st.rooms A (oldA.filter fun x => decide (x ≠ u)),
       st.connections⟩
      A u (.UserLeft A u) (oldA.filter fun x => decide (x ≠ u)) hroomA
      (fun v hv _ => hconnOldA v (List.mem_of_mem_filter hv))
    rw [filter_filter_self] at hbcA
    have hroomB : mapGet (mapInsert
        (mapInsert st.rooms A (oldA.filter fun x => decide (x ≠ u))) B
        ((mapGet (mapInsert st.rooms A
            (oldA.filter fun x => decide (x ≠ u))) B).getD [] ++ [u])) B
        = some ((mapGet (mapInsert st.rooms A
            (oldA.filter fun x => decide (x ≠ u))) B).getD [] ++ [u]) := by
      rw [mapGet_insert, if_pos rfl]
    have hbcB := broadcast_exclude_eq
      ⟨mapInsert st.users u ⟨usr.username, some B⟩,
       mapInsert
        (mapInsert st.rooms A (oldA.filter fun x => decide (x ≠ u))) B
        ((mapGet (mapInsert st.rooms A
            (oldA.filter fun x => decide (x ≠ u))) B).getD [] ++ [u]),
       st.connections⟩
      B u (.UserJoined B u)
      ((mapGet (mapInsert st.rooms A
          (oldA.filter fun x => decide (x ≠ u))) B).getD [] ++ [u]) hroomB
      (fun v hv hvu => by
        rw [List.mem_append, List.mem_singleton] at hv
        rcases hv with hv | hv
        · exact hconnB v hv
        · exact absurd hv hvu)
    have hfB : (((mapGet (mapInsert st.rooms A
        (oldA.filter fun x => decide (x ≠ u))) B).getD [] ++ [u]).filter
          fun v => decide (v ≠ u)) =
        (mapGet (mapInsert st.rooms A
          (oldA.filter fun x => decide (x ≠ u))) B).getD [] := by
      rw [List.filter_append]
      have h1 : ((mapGet (mapInsert st.rooms A
          (oldA.filter fun x => decide (x ≠ u))) B).getD []).filter
            (fun v => decide (v ≠ u)) =
          (mapGet (mapInsert st.rooms A
            (oldA.filter fun x => decide (x ≠ u))) B).getD [] :=
        List.filter_eq_self.mpr (fun v hv => by
          rw [decide_eq_true_eq]
          intro he
          rw [he] at hv
          exact hnotB hv)
      have h2 : ([u].filter fun v => decide (v ≠ u)) = [] := by simp
      rw [h1, h2, List.append_nil]
    rw [hfB] at hbcB
    rw [hps, hjr]
    show broadcast_to_room
        ⟨st.users,
         mapInsert st.rooms A (oldA.filter fun x => decide (x ≠ u)),
         st.connections⟩ A (.UserLeft A u) (some u)
      ++ [⟨.session,
           .JoinRoomAck true B ("Vous avez rejoint le salon " ++ B)⟩]
      ++ broadcast_to_room
        ⟨mapInsert st.users u ⟨usr.username, some B⟩,
         mapInsert
          (mapInsert st.rooms A (oldA.filter fun x => decide (x ≠ u))) B
          ((mapGet (mapInsert st.rooms A
              (oldA.filter fun x => decide (x ≠ u))) B).getD [] ++ [u]),
         st.connections⟩ B (.UserJoined B u) (some u) = _
    rw [hbcA, hbcB]

/-- Witness for C5 on `stAB`: `a`, currently in `r`, joins `s`. -/
theorem tp8_C5_join_room_witness :
    ∃ oldA oldB,
      mapGet stAB.rooms "r" = some oldA ∧
      ("r" ≠ "s" → oldB = (mapGet stAB.rooms "s").getD []) ∧
      ("r" = "s" → oldB = oldA.filter fun v => decide (v ≠ "a")) ∧
      "a" ∉ oldB ∧
      mapGet (process_message stAB (.JoinRoom "s")
          (some "a") 0).state.users "a"
        = some ⟨"a", some "s"⟩ ∧
      mapGet (process_message stAB (.JoinRoom "s")
          (some "a") 0).state.rooms "s"
        = some (oldB ++ ["a"]) ∧
      ("r" ≠ "s" →
        mapGet (process_message stAB (.JoinRoom "s")
            (some "a") 0).state.rooms "r"
          = some (oldA.filter fun v => decide (v ≠ "a"))) ∧
      (∀ r l,
        mapGet (process_message stAB (.JoinRoom "s")
            (some "a") 0).state.rooms r
          = some l → "a" ∈ l → r = "s") ∧
      (process_message stAB (.JoinRoom "s") (some "a") 0).sent =
        ((oldA.filter fun v => decide (v ≠ "a")).map
            fun v => ⟨.conn v, .UserLeft "r" "a"⟩)
        ++ [⟨.session,
             .JoinRoomAck true "s" ("Vous avez rejoint le salon " ++ "s")⟩]
        ++ (oldB.map fun v => ⟨.conn v, .UserJoined "s" "a"⟩) ∧
      (process_message stAB (.JoinRoom "s") (some "a") 0).current_user
        = some "a" ∧
      (process_message stAB (.JoinRoom "s") (some "a") 0).continue_loop
        = true :=
  tp8_C5_join_room stAB "a" "r" "s" ⟨"a", some "r"⟩ 0
    (inv_of_invB stAB (by decide)) (by decide) (by decide)

/-- C8: starting from any state satisfying the registry invariant, each
of the three registry-mutating operations preserves the property that a
username appears in the member list of at most one room; moreover after
`JoinRoom` the joining user occurs exactly once in the target room's
list (its previous occurrence having been removed before the append). -/
theorem tp8_C8_invariant (st : ServerState) (name u room : String)
    (cu : Option String) (hinv : Inv st)
    (hauth : mapContains st.users u = true) :
    atMostOneRoom (handle_connect st name cu).1 ∧
    atMostOneRoom (handle_join_room st u room).1 ∧
    atMostOneRoom (cleanup_user st u).1 ∧
    ((mapGet (handle_join_room st u room).1.rooms room).getD []).count u
      = 1 := by
  refine ⟨atMostOneRoom_of_inv _ (Inv_handle_connect st name cu hinv),
    atMostOneRoom_of_inv _ (Inv_handle_join_room st u room hinv hauth),
    atMostOneRoom_of_inv _ (Inv_cleanup_user st u hinv), ?_⟩
  have hinv2 := Inv_handle_join_room st u room hinv hauth
  obtain ⟨usr, hu⟩ := mapContains_true.mp hauth
  have husers2 : mapGet (handle_join_room st u room).1.users u =
      some ⟨usr.username, some room⟩ := by
    cases hcr : usr.current_room with
    | none =>
        rw [handle_join_room_spec_noroom st u room usr hu hcr]
        show mapGet (mapInsert st.users u ⟨usr.username, some room⟩) u = _
        rw [mapGet_insert, if_pos rfl]
    | some old_room =>
        obtain ⟨l, hl, _⟩ := hinv.room_mem u usr old_room hu hcr
        rw [handle_join_room_spec st u room old_room usr l hu hcr hl]
        show mapGet (mapInsert st.users u ⟨usr.username, some room⟩) u = _
        rw [mapGet_insert, if_pos rfl]
  obtain ⟨l2, hl2, hul2⟩ := hinv2.room_mem u _ room husers2 rfl
  rw [hl2]
  simp only [Option.getD_some]
  exact List.count_eq_one_of_mem (hinv2.nodup room l2 hl2) hul2

/-- Witness for C8 on `stAB`: fresh name `c`, authenticated user `a`,
target room `s`. -/
theorem tp8_C8_invariant_witness :
    atMostOneRoom (handle_connect stAB "c" none).1 ∧
    atMostOneRoom (handle_join_room stAB "a" "s").1 ∧
    atMostOneRoom (cleanup_user stAB "a").1 ∧
    ((mapGet (handle_join_room stAB "a" "s").1.rooms "s").getD []).count "a"
      = 1 :=
  tp8_C8_invariant stAB "c" "a" "s" none (inv_of_invB stAB (by decide))
    (by decide)

/-- Witness for C10 on `stAB`: rebinding from `a` to the fresh `c`. -/
theorem tp8_C10_connect_rebind_witness :
    process_message stAB (.Connect "c") (some "a") 0 =
      ⟨⟨mapInsert stAB.users "c" ⟨"c", none⟩, stAB.rooms,
        mapInsert stAB.connections "c" ()⟩, some "c", true,
       [⟨.session, .ConnectAck true ("Bienvenue, " ++ "c" ++ " !")⟩]⟩ ∧
    mapGet (mapInsert stAB.users "c" ⟨"c", none⟩) "a" =
      mapGet stAB.users "a" ∧
    mapGet (cleanup_user
        ⟨mapInsert stAB.users "c" ⟨"c", none⟩, stAB.rooms,
         mapInsert stAB.connections "c" ()⟩ "c").1.users "a" =
      mapGet stAB.users "a" ∧
    (cleanup_user
        ⟨mapInsert stAB.users "c" ⟨"c", none⟩, stAB.rooms,
         mapInsert stAB.connections "c" ()⟩ "c").1.rooms = stAB.rooms ∧
    mapGet (cleanup_user
        ⟨mapInsert stAB.users "c" ⟨"c", none⟩, stAB.rooms,
         mapInsert stAB.connections "c" ()⟩ "c").1.connections "a" =
      mapGet stAB.connections "a" :=
  tp8_C10_connect_rebind stAB "a" "c" 0 (by decide) (by decide)

end TP8
